import Mathlib

/-!
Shallow embedding of the pjdfstest helper scripts
(`src/book/compatibility_report.py` and `src/create_issues.py`).

Strings are modelled as `List Char`; a text file is modelled either as its
list of lines (`List (List Char)`, each line retaining its trailing newline,
as Python file iteration yields them) or as its raw character content
(`List Char`) for the scripts that read a raw prefix.
-/

namespace Pjdfstest

/-- A string (Python `str`) is a list of characters. -/
abbrev Str := List Char

/-- A text file viewed as its sequence of lines, each line keeping its
trailing newline character, exactly as Python `for line in file` yields. -/
abbrev FileLines := List Str

/-- `search_string_in_file` from `src/book/compatibility_report.py`:
iterates over the lines of the file and returns `True` as soon as some line
contains `string` as a substring (Python `string in line`), else `False`. -/
def search_string_in_file (file : FileLines) (string : Str) : Bool :=
  file.any (fun line => decide (string <:+: line))

/-- The per-test coverage condition of `get_tests_with_and_without_rust_files`:
`any(search_string_in_file(rust_file, test) for rust_file in rust_files)`. -/
def coveredBy (rust_files : List FileLines) (test : Str) : Bool :=
  rust_files.any (fun rust_file => search_string_in_file rust_file test)

/-- `get_tests_with_and_without_rust_files` from
`src/book/compatibility_report.py`: classifies every candidate test id into
the pair (tests with a matching rust file, tests without one).  Python builds
two `set`s while iterating over the candidates; we model the candidates as a
list and return the induced partition. -/
def get_tests_with_and_without_rust_files (rust_files : List FileLines)
    (tests_files : List Str) : List Str × List Str :=
  tests_files.partition (fun test => coveredBy rust_files test)

/-- Python `str.split(sep)` with an explicit single-character separator, as
used by `line.split("\t")` in `get_tests_filenames_from_spec` and
`testfile.split("/")` in `main` of `src/book/compatibility_report.py`:
empty fields are kept and the empty string splits into `[""]`. -/
def pySplit (sep : Char) : Str → List Str
  | [] => [[]]
  | c :: cs =>
    if c = sep then [] :: pySplit sep cs
    else
      match pySplit sep cs with
      | [] => [[c]]
      | p :: ps => (c :: p) :: ps

/-- `get_tests_filenames_from_spec` from `src/book/compatibility_report.py`:
for each manifest line (which, per Python file iteration, retains its
trailing newline) it yields `tuple(line.split("\t"))`. -/
def get_tests_filenames_from_spec (lines : FileLines) : List (List Str) :=
  lines.map (fun line => pySplit '\t' line)

/-- The `Test` dataclass of `src/book/compatibility_report.py`. -/
structure Test where
  name : Str
  has_rust_file : Bool
  description : Str
deriving DecidableEq

/-- The `syscalls` dictionary of `main`: category name to list of tests, in
insertion order (Python dicts preserve insertion order). -/
abbrev Groups := List (Str × List Test)

/-- Appending a test to the `syscalls` dict: `syscalls[syscall].append(...)`,
creating the key first when absent. -/
def addTest (gs : Groups) (syscall : Str) (t : Test) : Groups :=
  match gs with
  | [] => [(syscall, [t])]
  | (c, ts) :: rest =>
    if c = syscall then (c, ts ++ [t]) :: rest
    else (c, ts) :: addTest rest syscall t

/-- One iteration of the grouping loop in `main` of
`src/book/compatibility_report.py`: the unpacking `for testfile, desc in
tests_files` followed by `syscall, test_name = testfile.split("/")` and the
append.  `Except.error` models the `ValueError` Python raises when either
unpacking does not find exactly two values. -/
def groupStep (covered : Str → Bool) (gs : Groups) (record : List Str) :
    Except Unit Groups :=
  match record with
  | [testfile, desc] =>
    match pySplit '/' testfile with
    | [syscall, test_name] =>
        .ok (addTest gs syscall ⟨test_name, covered testfile, desc⟩)
    | _ => .error ()
  | _ => .error ()

/-- The grouping loop of `main`, threading the `syscalls` dict through the
records; the first failing record aborts the loop. -/
def buildGroupsAux (covered : Str → Bool) :
    Groups → List (List Str) → Except Unit Groups
  | gs, [] => .ok gs
  | gs, r :: rs =>
    match groupStep covered gs r with
    | .ok gs₁ => buildGroupsAux covered gs₁ rs
    | .error e => .error e

/-- The grouping step of `main`: fold the records into the `syscalls` dict,
starting from the empty dict.  `covered` is the membership test
`testfile in tests_with_rust_files`. -/
def buildGroups (records : List (List Str)) (covered : Str → Bool) :
    Except Unit Groups :=
  buildGroupsAux covered [] records

/-- The ordering pass of the rendering loop in `main`:
`sorted(syscalls.items())` (dict keys are unique, so Python's tuple
comparison here is lexical comparison of the category names) followed by
`tests.sort(key=lambda t: t.name)` inside each category. -/
def sortGroups (gs : Groups) : Groups :=
  (gs.mergeSort (fun g₁ g₂ => decide (g₁.1 ≤ g₂.1))).map
    (fun g => (g.1, g.2.mergeSort (fun t₁ t₂ => decide (t₁.name ≤ t₂.name))))

/-- The `value` and `max` attributes printed in a category header:
`<progress value='{sum(1 for t in tests if t.has_rust_file)}'
max='{len(tests)}'>`. -/
def categoryHeader (tests : List Test) : Nat × Nat :=
  (tests.countP (fun t => t.has_rust_file), tests.length)

/-- The literal characters of the regex `desc="(.*?)"` before the capture
group. -/
def descPat : Str := ['d', 'e', 's', 'c', '=', '"']

/-- Matching `(.*?)"` at the current position: the non-greedy capture scans
to the first `"`; the attempt fails at a newline (Python `.` does not match
newline) or at end of input. -/
def captureAux : Str → Option Str
  | [] => none
  | c :: cs =>
    if c = '"' then some []
    else if c = '\n' then none
    else (captureAux cs).map (fun cap => c :: cap)

/-- `re.search('desc="(.*?)"', header)`: leftmost match wins; a position
where the literal part matches but the capture cannot be closed before a
newline is skipped and the scan resumes one character further. -/
def reSearchDesc : Str → Option Str
  | [] => none
  | c :: cs =>
    if descPat.isPrefixOf (c :: cs) then
      match captureAux ((c :: cs).drop descPat.length) with
      | some cap => some cap
      | none => reSearchDesc cs
    else reSearchDesc cs

/-- A regex match of `desc="(.*?)"` starts at position `i` of `l`. -/
def matchAt (l : Str) (i : Nat) : Prop :=
  descPat.isPrefixOf (l.drop i) = true ∧
    (captureAux (l.drop (i + descPat.length))).isSome = true

instance (l : Str) (i : Nat) : Decidable (matchAt l i) := by
  unfold matchAt
  infer_instance

/-- The descriptor extraction of `src/create_issues.py`:
`header = open(path).read(600)` (the first 600 characters), then
`re.search('desc="(.*?)"', header)`, yielding
`match.group(1) if match else 'Unknown description'`. -/
def extract_description (content : Str) : Str :=
  match reSearchDesc (content.take 600) with
  | some cap => cap
  | none => "Unknown description".toList

/-- The ASCII whitespace characters removed by Python `str.strip()` (the
descriptor lines this tool reads are ASCII). -/
def pySpace (c : Char) : Bool :=
  c == ' ' || c == '\t' || c == '\n' || c == '\r' ||
    c == Char.ofNat 11 || c == Char.ofNat 12

/-- Python `str.strip()`. -/
def pyStrip (s : Str) : Str :=
  ((s.dropWhile pySpace).reverse.dropWhile pySpace).reverse

/-- The literal characters of the prefix tested by
`line.startswith("desc=")`. -/
def descLinePat : Str := ['d', 'e', 's', 'c', '=']

/-- `find_file_description` from `src/book/compatibility_report.py`: for the
first line that starts with `desc=` it returns
`line[len('desc="") : -2].strip()` (indices 6 to length minus 2); when no
line starts with that prefix it returns the empty string. -/
def find_file_description : FileLines → Str
  | [] => []
  | line :: rest =>
    if descLinePat.isPrefixOf line then
      pyStrip ((line.drop 6).take (line.length - 8))
    else find_file_description rest

/-- An observable external effect of the dispatch loop in
`src/create_issues.py`. -/
inductive Event where
  | create (syscall : Str) : Event
  | sleep : Event
deriving DecidableEq

/-- The module-level dispatch loop of `src/create_issues.py`: for each
directory, one `gh issue create` invocation (`subprocess.check_output`)
followed by `sleep(10)`.  A failing invocation raises `CalledProcessError`,
which terminates the loop; `ok d` tells whether the tracker call for
directory `d` succeeds.  Returns the trace of external effects and whether
the loop ran to completion. -/
def create_issues_loop (ok : Str → Bool) : List Str → List Event × Bool
  | [] => ([], true)
  | d :: rest =>
    if ok d then
      (Event.create d :: Event.sleep :: (create_issues_loop ok rest).1,
        (create_issues_loop ok rest).2)
    else ([Event.create d], false)

/-- The directory of a create event, if any. -/
def createdDir : Event → Option Str
  | Event.create d => some d
  | Event.sleep => none

/-- A record the grouping loop of `main` cannot process: wrong unpacking
arity, or a testfile whose `split("/")` does not produce exactly two
values. -/
def badRecord (record : List Str) : Prop :=
  record.length ≠ 2 ∨
    ∃ testfile desc, record = [testfile, desc] ∧ testfile.count '/' ≠ 1

/-- Unfolding equation of `pySplit` at a separator character. -/
theorem pySplit_cons_sep (sep : Char) (cs : Str) :
    pySplit sep (sep :: cs) = [] :: pySplit sep cs := by
  simp [pySplit]

/-- Unfolding equation of `pySplit` at a non-separator character. -/
theorem pySplit_cons_ne (sep c : Char) (hc : c ≠ sep) (cs : Str) (p : Str)
    (ps : List Str) (hsp : pySplit sep cs = p :: ps) :
    pySplit sep (c :: cs) = (c :: p) :: ps := by
  rw [pySplit, if_neg hc, hsp]

/-- `pySplit` never returns the empty list. -/
theorem pySplit_ne_nil (sep : Char) (l : Str) : pySplit sep l ≠ [] := by
  induction l with
  | nil => simp [pySplit]
  | cons c cs ih =>
    by_cases hc : c = sep
    · simp [pySplit, hc]
    · cases h : pySplit sep cs with
      | nil => simp [pySplit, hc, h]
      | cons p ps => simp [pySplit, hc, h]

/-- The number of fields `pySplit` produces is the separator count plus one. -/
theorem length_pySplit (sep : Char) (l : Str) :
    (pySplit sep l).length = l.count sep + 1 := by
  induction l with
  | nil => simp [pySplit]
  | cons c cs ih =>
    by_cases hc : c = sep
    · simp [pySplit, hc, List.count_cons, ih]
    · cases h : pySplit sep cs with
      | nil => exact absurd h (pySplit_ne_nil sep cs)
      | cons p ps =>
        rw [h] at ih
        simp [pySplit, hc, h, List.count_cons, Ne.symm hc, ← ih]

/-- If a string ends with a character other than the separator, then the last
field produced by `pySplit` still ends with that character. -/
theorem pySplit_getLast (sep c : Char) (hc : c ≠ sep) :
    ∀ l : Str, l.getLast? = some c →
      ∃ p, (pySplit sep l).getLast? = some p ∧ p.getLast? = some c := by
  intro l
  induction l with
  | nil => intro h; cases h
  | cons a t ih =>
    intro h
    cases t with
    | nil =>
      simp only [List.getLast?_singleton, Option.some.injEq] at h
      subst h
      have ha : a ≠ sep := hc
      refine ⟨[a], ?_, by simp⟩
      rw [pySplit_cons_ne sep a ha [] [] [] (by simp [pySplit])]
      simp
    | cons b t' =>
      rw [List.getLast?_cons_cons] at h
      obtain ⟨p, hp, hpc⟩ := ih h
      by_cases ha : a = sep
      · refine ⟨p, ?_, hpc⟩
        subst ha
        rw [pySplit_cons_sep]
        cases hsp : pySplit a (b :: t') with
        | nil => exact absurd hsp (pySplit_ne_nil a _)
        | cons q qs =>
          rw [hsp] at hp
          rw [List.getLast?_cons_cons]
          exact hp
      · cases hsp : pySplit sep (b :: t') with
        | nil => exact absurd hsp (pySplit_ne_nil sep _)
        | cons q qs =>
          rw [hsp] at hp
          cases qs with
          | nil =>
            simp only [List.getLast?_singleton, Option.some.injEq] at hp
            obtain rfl : q = p := hp
            refine ⟨a :: q, ?_, ?_⟩
            · rw [pySplit_cons_ne sep a ha (b :: t') q [] hsp]
              simp
            · cases q with
              | nil => cases hpc
              | cons x xs => rw [List.getLast?_cons_cons]; exact hpc
          | cons r rs =>
            refine ⟨p, ?_, hpc⟩
            rw [pySplit_cons_ne sep a ha (b :: t') q (r :: rs) hsp,
              List.getLast?_cons_cons]
            rw [List.getLast?_cons_cons] at hp
            exact hp

/-- C1.  A candidate id lands in the covered set iff some rust source file
has a line containing the id as a literal substring. -/
theorem mem_covered_iff_infix (rust_files : List FileLines)
    (tests_files : List Str) (id : Str) (hid : id ∈ tests_files) :
    id ∈ (get_tests_with_and_without_rust_files rust_files tests_files).1 ↔
      ∃ rust_file ∈ rust_files, ∃ line ∈ rust_file, id <:+: line := by
  unfold get_tests_with_and_without_rust_files
  rw [List.partition_eq_filter_filter]
  simp only [List.mem_filter, coveredBy, search_string_in_file, List.any_eq_true,
    decide_eq_true_eq]
  constructor
  · rintro ⟨-, rust_file, hrf, line, hline, hinf⟩
    exact ⟨rust_file, hrf, line, hline, hinf⟩
  · rintro ⟨rust_file, hrf, line, hline, hinf⟩
    exact ⟨hid, rust_file, hrf, line, hline, hinf⟩

/-- Witness for `mem_covered_iff_infix` at a concrete corpus. -/
theorem mem_covered_iff_infix_witness :
    "open/01.t".toList ∈
        (get_tests_with_and_without_rust_files
          [[" // open/01.t".toList]] ["open/01.t".toList]).1 ↔
      ∃ rust_file ∈ [[" // open/01.t".toList]],
        ∃ line ∈ rust_file, "open/01.t".toList <:+: line :=
  mem_covered_iff_infix [[" // open/01.t".toList]] ["open/01.t".toList]
    "open/01.t".toList (by decide)

/-- C2.  The two sets returned by the reconciler partition the candidate id
set exactly: together they contain exactly the candidate ids, and no id is in
both. -/
theorem covered_uncovered_partition (rust_files : List FileLines)
    (tests_files : List Str) (id : Str) :
    ((id ∈ (get_tests_with_and_without_rust_files rust_files tests_files).1 ∨
      id ∈ (get_tests_with_and_without_rust_files rust_files tests_files).2) ↔
        id ∈ tests_files) ∧
    ¬ (id ∈ (get_tests_with_and_without_rust_files rust_files tests_files).1 ∧
       id ∈ (get_tests_with_and_without_rust_files rust_files tests_files).2) := by
  unfold get_tests_with_and_without_rust_files
  rw [List.partition_eq_filter_filter]
  simp only [List.mem_filter, Function.comp_apply, Bool.not_eq_true']
  constructor
  · constructor
    · rintro (⟨h, -⟩ | ⟨h, -⟩) <;> exact h
    · intro h
      rcases hb : coveredBy rust_files id with hf | ht
      · exact Or.inr ⟨h, rfl⟩
      · exact Or.inl ⟨h, rfl⟩
  · rintro ⟨⟨-, h₁⟩, -, h₂⟩
    rw [h₁] at h₂
    cases h₂

/-- C8.  A manifest line that ends with a newline yields a record whose
description field still ends with that newline: `line.split("\t")` splits on
tabs without stripping the line terminator, so the description rendered into
the report keeps the trailing newline. -/
theorem manifest_description_keeps_newline (lines : FileLines) (line : Str)
    (hmem : line ∈ lines) (hnl : line.getLast? = some '\n')
    (i d : Str) (hsplit : pySplit '\t' line = [i, d]) :
    [i, d] ∈ get_tests_filenames_from_spec lines ∧ d.getLast? = some '\n' := by
  refine ⟨?_, ?_⟩
  · refine List.mem_map.mpr ⟨line, hmem, ?_⟩
    exact hsplit
  · obtain ⟨p, hp, hpc⟩ := pySplit_getLast '\t' '\n' (by decide) line hnl
    rw [hsplit, List.getLast?_cons_cons, List.getLast?_singleton] at hp
    obtain rfl : d = p := by injection hp
    exact hpc

/-- Witness for `manifest_description_keeps_newline` on the manifest line
`a/b<TAB>x<NL>`. -/
theorem manifest_description_keeps_newline_witness :
    ["a/b".toList, "x\n".toList] ∈
        get_tests_filenames_from_spec ["a/b\tx\n".toList] ∧
      ("x\n".toList).getLast? = some '\n' :=
  manifest_description_keeps_newline ["a/b\tx\n".toList] "a/b\tx\n".toList
    (by decide) (by decide) "a/b".toList "x\n".toList (by decide)

/-- A record accepted by `groupStep` is a pair whose testfile splits on `/`
into exactly two parts, and the step appends the corresponding test. -/
theorem groupStep_ok_elim (covered : Str → Bool) (gs : Groups)
    (record : List Str) (gs₁ : Groups)
    (h : groupStep covered gs record = .ok gs₁) :
    ∃ testfile desc syscall test_name,
      record = [testfile, desc] ∧ pySplit '/' testfile = [syscall, test_name] ∧
      gs₁ = addTest gs syscall ⟨test_name, covered testfile, desc⟩ := by
  rcases record with - | ⟨t, - | ⟨d, - | ⟨e, r⟩⟩⟩
  · simp [groupStep] at h
  · simp [groupStep] at h
  · refine ⟨t, d, ?_⟩
    simp only [groupStep] at h
    rcases hsp : pySplit '/' t with - | ⟨sy, - | ⟨nm, - | ⟨x, xs⟩⟩⟩ <;>
      rw [hsp] at h
    · simp at h
    · simp at h
    · simp only [Except.ok.injEq] at h
      exact ⟨sy, nm, rfl, rfl, h.symm⟩
    · simp at h
  · simp [groupStep] at h

/-- A manifest containing a bad record makes the grouping loop fail,
whatever the starting dict. -/
theorem buildGroupsAux_error_of_bad (covered : Str → Bool) :
    ∀ (records : List (List Str)) (gs : Groups),
      (∃ r ∈ records, badRecord r) →
        buildGroupsAux covered gs records = .error () := by
  intro records
  induction records with
  | nil => rintro gs ⟨r, hr, -⟩; cases hr
  | cons r rs ih =>
    rintro gs ⟨r₀, hr₀, hbad⟩
    cases hstep : groupStep covered gs r with
    | error e => cases e; simp [buildGroupsAux, hstep]
    | ok gs₁ =>
      simp only [buildGroupsAux, hstep]
      rcases List.mem_cons.mp hr₀ with rfl | hmem
      · exfalso
        obtain ⟨t, d, sy, nm, rfl, hsp, -⟩ := groupStep_ok_elim covered gs r₀ gs₁ hstep
        rcases hbad with hlen | ⟨t', d', heq, hslash⟩
        · exact hlen rfl
        · simp only [List.cons.injEq, and_true] at heq
          obtain ⟨rfl, rfl⟩ := heq
          have := length_pySplit '/' t
          rw [hsp] at this
          simp at this
          omega
      · exact ih gs₁ ⟨r₀, hmem, hbad⟩

/-- C10.  A manifest line with a tab count other than one yields a record of
arity other than two, and the grouping loop of `main` fails on any manifest
containing it, before producing a report. -/
theorem malformed_record_arity (lines : FileLines) (line : Str)
    (hmem : line ∈ lines) (htab : line.count '\t' ≠ 1) :
    (pySplit '\t' line).length ≠ 2 ∧
      ∀ covered : Str → Bool,
        buildGroups (get_tests_filenames_from_spec lines) covered =
          .error () := by
  have hlen : (pySplit '\t' line).length ≠ 2 := by
    rw [length_pySplit]
    omega
  refine ⟨hlen, fun covered => ?_⟩
  apply buildGroupsAux_error_of_bad
  exact ⟨pySplit '\t' line,
    List.mem_map_of_mem (fun line => pySplit '\t' line) hmem, Or.inl hlen⟩

/-- Witness for `malformed_record_arity` on a manifest line with no tab. -/
theorem malformed_record_arity_witness :
    (pySplit '\t' "open/01.t no tab\n".toList).length ≠ 2 ∧
      ∀ covered : Str → Bool,
        buildGroups (get_tests_filenames_from_spec ["open/01.t no tab\n".toList])
            covered =
          .error () :=
  malformed_record_arity ["open/01.t no tab\n".toList]
    "open/01.t no tab\n".toList (by decide) (by decide)

/-- A string that splits into a single field is that field. -/
theorem pySplit_singleton (sep : Char) :
    ∀ l x : Str, pySplit sep l = [x] → l = x := by
  intro l
  induction l with
  | nil =>
    intro x h
    simp only [pySplit, List.cons.injEq, and_true] at h
    exact h
  | cons c cs ih =>
    intro x h
    by_cases hc : c = sep
    · subst hc
      rw [pySplit_cons_sep] at h
      simp only [List.cons.injEq] at h
      exact absurd h.2 (pySplit_ne_nil c cs)
    · cases hsp : pySplit sep cs with
      | nil => exact absurd hsp (pySplit_ne_nil sep cs)
      | cons p ps =>
        rw [pySplit_cons_ne sep c hc cs p ps hsp] at h
        simp only [List.cons.injEq] at h
        obtain ⟨rfl, rfl⟩ := h
        rw [ih p (by rw [hsp])]

/-- The first field produced by `pySplit` contains no separator. -/
theorem pySplit_head_no_sep (sep : Char) :
    ∀ (l p : Str) (ps : List Str), pySplit sep l = p :: ps → sep ∉ p := by
  intro l
  induction l with
  | nil =>
    intro p ps h
    simp only [pySplit, List.cons.injEq] at h
    rw [← h.1]
    simp
  | cons c cs ih =>
    intro p ps h
    by_cases hc : c = sep
    · subst hc
      rw [pySplit_cons_sep] at h
      simp only [List.cons.injEq] at h
      rw [← h.1]
      simp
    · cases hsp : pySplit sep cs with
      | nil => exact absurd hsp (pySplit_ne_nil sep cs)
      | cons q qs =>
        rw [pySplit_cons_ne sep c hc cs q qs hsp] at h
        simp only [List.cons.injEq] at h
        rw [← h.1]
        intro hmem
        rcases List.mem_cons.mp hmem with rfl | hmem
        · exact hc rfl
        · exact ih q qs hsp hmem

/-- A string that splits into exactly two fields is the first field, the
separator, then the second field. -/
theorem pySplit_pair (sep : Char) :
    ∀ l a b : Str, pySplit sep l = [a, b] → l = a ++ sep :: b := by
  intro l
  induction l with
  | nil => intro a b h; simp [pySplit] at h
  | cons c cs ih =>
    intro a b h
    by_cases hc : c = sep
    · subst hc
      rw [pySplit_cons_sep] at h
      simp only [List.cons.injEq] at h
      obtain ⟨rfl, hcs⟩ := h
      rw [pySplit_singleton c cs b (by rw [hcs])]
      rfl
    · cases hsp : pySplit sep cs with
      | nil => exact absurd hsp (pySplit_ne_nil sep cs)
      | cons q qs =>
        rw [pySplit_cons_ne sep c hc cs q qs hsp] at h
        simp only [List.cons.injEq] at h
        obtain ⟨rfl, rfl⟩ := h
        rw [ih q b hsp]
        rfl

/-- The test just appended by `addTest` is present under its category. -/
theorem addTest_mem_self (syscall : Str) (t : Test) :
    ∀ gs : Groups, ∃ ts, (syscall, ts) ∈ addTest gs syscall t ∧ t ∈ ts := by
  intro gs
  induction gs with
  | nil => exact ⟨[t], by simp [addTest]⟩
  | cons g rest ih =>
    obtain ⟨c, ts⟩ := g
    by_cases hc : c = syscall
    · subst hc
      refine ⟨ts ++ [t], ?_, by simp⟩
      simp [addTest]
    · obtain ⟨ts₁, hmem, ht⟩ := ih
      refine ⟨ts₁, ?_, ht⟩
      simp only [addTest, if_neg hc]
      exact List.mem_cons_of_mem _ hmem

/-- `addTest` never removes a test already present in the dict. -/
theorem addTest_mem_mono (syscall : Str) (t : Test) (c₀ : Str) (t₀ : Test) :
    ∀ gs : Groups, (∃ ts, (c₀, ts) ∈ gs ∧ t₀ ∈ ts) →
      ∃ ts, (c₀, ts) ∈ addTest gs syscall t ∧ t₀ ∈ ts := by
  intro gs
  induction gs with
  | nil => rintro ⟨ts, hmem, -⟩; cases hmem
  | cons g rest ih =>
    rintro ⟨ts₀, hmem, ht₀⟩
    rcases List.mem_cons.mp hmem with heq | hrest
    · subst heq
      by_cases hc : c₀ = syscall
      · subst hc
        refine ⟨ts₀ ++ [t], ?_, List.mem_append_left _ ht₀⟩
        simp [addTest]
      · refine ⟨ts₀, ?_, ht₀⟩
        simp only [addTest, if_neg hc]
        exact List.mem_cons_self _ _
    · obtain ⟨c, ts⟩ := g
      by_cases hc : c = syscall
      · subst hc
        refine ⟨ts₀, ?_, ht₀⟩
        simp only [addTest, if_pos rfl]
        exact List.mem_cons_of_mem _ hrest
      · obtain ⟨ts₁, hmem₁, ht₁⟩ := ih ⟨ts₀, hrest, ht₀⟩
        refine ⟨ts₁, ?_, ht₁⟩
        simp only [addTest, if_neg hc]
        exact List.mem_cons_of_mem _ hmem₁

/-- The grouping loop never removes a test already present in the dict. -/
theorem buildGroupsAux_mem_mono (covered : Str → Bool) (c₀ : Str) (t₀ : Test) :
    ∀ (records : List (List Str)) (gs out : Groups),
      buildGroupsAux covered gs records = .ok out →
      (∃ ts, (c₀, ts) ∈ gs ∧ t₀ ∈ ts) → ∃ ts, (c₀, ts) ∈ out ∧ t₀ ∈ ts := by
  intro records
  induction records with
  | nil =>
    intro gs out h hmem
    simp only [buildGroupsAux, Except.ok.injEq] at h
    exact h ▸ hmem
  | cons r rs ih =>
    intro gs out h hmem
    cases hstep : groupStep covered gs r with
    | error e => rw [buildGroupsAux, hstep] at h; cases h
    | ok gs₁ =>
      rw [buildGroupsAux, hstep] at h
      obtain ⟨t, d, sy, nm, rfl, hsp, rfl⟩ :=
        groupStep_ok_elim covered gs r gs₁ hstep
      exact ih _ out h (addTest_mem_mono sy _ c₀ t₀ gs hmem)

/-- Every record of a successfully grouped manifest is a well-formed pair
whose test ends up in the dict under the first field of its split id. -/
theorem buildGroupsAux_mem (covered : Str → Bool) :
    ∀ (records : List (List Str)) (gs out : Groups),
      buildGroupsAux covered gs records = .ok out →
      ∀ r ∈ records, ∃ testfile desc syscall test_name,
        r = [testfile, desc] ∧
        pySplit '/' testfile = [syscall, test_name] ∧
        ∃ ts, (syscall, ts) ∈ out ∧
          (⟨test_name, covered testfile, desc⟩ : Test) ∈ ts := by
  intro records
  induction records with
  | nil => intro gs out h r hr; cases hr
  | cons r₁ rs ih =>
    intro gs out h r hr
    cases hstep : groupStep covered gs r₁ with
    | error e => rw [buildGroupsAux, hstep] at h; cases h
    | ok gs₁ =>
      rw [buildGroupsAux, hstep] at h
      obtain ⟨t, d, sy, nm, rfl, hsp, rfl⟩ :=
        groupStep_ok_elim covered gs r₁ gs₁ hstep
      rcases List.mem_cons.mp hr with rfl | hmem
      · refine ⟨t, d, sy, nm, rfl, hsp, ?_⟩
        exact buildGroupsAux_mem_mono covered sy _ rs _ out h
          (addTest_mem_self sy _ gs)
      · exact ih _ out h r hmem

/-- C6.  A manifest record whose id does not contain exactly one `/` makes
the grouping step fail fatally; a record whose id contains exactly one `/`
is grouped under the prefix before the `/`. -/
theorem grouping_requires_single_slash (records : List (List Str))
    (covered : Str → Bool) :
    ((∃ r ∈ records, ∃ testfile desc,
        r = [testfile, desc] ∧ testfile.count '/' ≠ 1) →
      buildGroups records covered = .error ()) ∧
    (∀ gs, buildGroups records covered = .ok gs →
      ∀ r ∈ records, ∃ testfile desc pre suf,
        r = [testfile, desc] ∧ testfile = pre ++ '/' :: suf ∧ '/' ∉ pre ∧
        ∃ ts, (pre, ts) ∈ gs ∧
          (⟨suf, covered testfile, desc⟩ : Test) ∈ ts) := by
  constructor
  · rintro ⟨r, hr, t, d, rfl, hslash⟩
    exact buildGroupsAux_error_of_bad covered records []
      ⟨[t, d], hr, Or.inr ⟨t, d, rfl, hslash⟩⟩
  · intro gs h r hr
    obtain ⟨t, d, sy, nm, rfl, hsp, ts, hts, htst⟩ :=
      buildGroupsAux_mem covered records [] gs h r hr
    exact ⟨t, d, sy, nm, rfl, pySplit_pair '/' t sy nm hsp,
      pySplit_head_no_sep '/' t sy [nm] hsp, ts, hts, htst⟩

/-- Witness for `grouping_requires_single_slash`: a slash-free id is fatal;
`open/01.t` is grouped under `open`. -/
theorem grouping_requires_single_slash_witness :
    buildGroups [["nosplit".toList, "da".toList]] (fun _ => false) =
        .error () ∧
      ∃ testfile desc pre suf,
        ["open/01.t".toList, "db".toList] = [testfile, desc] ∧
        testfile = pre ++ '/' :: suf ∧ '/' ∉ pre ∧
        ∃ ts, (pre, ts) ∈
            [("open".toList,
              [(⟨"01.t".toList, false, "db".toList⟩ : Test)])] ∧
          (⟨suf, false, desc⟩ : Test) ∈ ts :=
  ⟨(grouping_requires_single_slash [["nosplit".toList, "da".toList]]
      (fun _ => false)).1
      ⟨["nosplit".toList, "da".toList], by decide, "nosplit".toList,
        "da".toList, rfl, by decide⟩,
    (grouping_requires_single_slash [["open/01.t".toList, "db".toList]]
      (fun _ => false)).2
      [("open".toList, [(⟨"01.t".toList, false, "db".toList⟩ : Test)])]
      rfl ["open/01.t".toList, "db".toList] (by decide)⟩

/-- Unfolding equation of `addTest` when the head holds the key. -/
theorem addTest_cons_self (c : Str) (ts : List Test) (rest : Groups)
    (t : Test) :
    addTest ((c, ts) :: rest) c t = (c, ts ++ [t]) :: rest := by
  simp [addTest]

/-- Unfolding equation of `addTest` when the head holds another key. -/
theorem addTest_cons_ne (c₁ c : Str) (hc : c₁ ≠ c) (ts : List Test)
    (rest : Groups) (t : Test) :
    addTest ((c₁, ts) :: rest) c t = (c₁, ts) :: addTest rest c t := by
  simp [addTest, hc]

/-- A key is present after `addTest` iff it was present before or is the key
just inserted. -/
theorem mem_keys_addTest (c : Str) (t : Test) (x : Str) :
    ∀ gs : Groups,
      (x ∈ (addTest gs c t).map Prod.fst ↔ x ∈ gs.map Prod.fst ∨ x = c) := by
  intro gs
  induction gs with
  | nil => simp [addTest]
  | cons g rest ih =>
    obtain ⟨c₁, ts⟩ := g
    by_cases hc : c₁ = c
    · subst hc
      rw [addTest_cons_self]
      simp only [List.map_cons, List.mem_cons]
      tauto
    · rw [addTest_cons_ne c₁ c hc]
      simp only [List.map_cons, List.mem_cons, ih]
      tauto

/-- `addTest` preserves distinctness of the dict keys. -/
theorem keys_nodup_addTest (c : Str) (t : Test) :
    ∀ gs : Groups, (gs.map Prod.fst).Nodup →
      ((addTest gs c t).map Prod.fst).Nodup := by
  intro gs
  induction gs with
  | nil => intro h; simp [addTest]
  | cons g rest ih =>
    obtain ⟨c₁, ts⟩ := g
    intro h
    simp only [List.map_cons, List.nodup_cons] at h
    by_cases hc : c₁ = c
    · subst hc
      rw [addTest_cons_self]
      simp only [List.map_cons, List.nodup_cons]
      exact h
    · rw [addTest_cons_ne c₁ c hc]
      simp only [List.map_cons, List.nodup_cons]
      refine ⟨?_, ih h.2⟩
      intro hmem
      rcases (mem_keys_addTest c t c₁ rest).mp hmem with hm | rfl
      · exact h.1 hm
      · exact hc rfl

/-- The grouping loop keeps the dict keys distinct. -/
theorem buildGroupsAux_keys_nodup (covered : Str → Bool) :
    ∀ (records : List (List Str)) (gs out : Groups),
      (gs.map Prod.fst).Nodup →
      buildGroupsAux covered gs records = .ok out →
      (out.map Prod.fst).Nodup := by
  intro records
  induction records with
  | nil =>
    intro gs out hnd h
    simp only [buildGroupsAux, Except.ok.injEq] at h
    exact h ▸ hnd
  | cons r rs ih =>
    intro gs out hnd h
    cases hstep : groupStep covered gs r with
    | error e => rw [buildGroupsAux, hstep] at h; cases h
    | ok gs₁ =>
      rw [buildGroupsAux, hstep] at h
      obtain ⟨t, d, sy, nm, rfl, hsp, rfl⟩ :=
        groupStep_ok_elim covered gs r gs₁ hstep
      exact ih _ out (keys_nodup_addTest sy _ gs hnd) h

/-- The comparator Python uses on `syscalls.items()` is transitive. -/
theorem keyLe_trans (a b c : Str × List Test)
    (h₁ : decide (a.1 ≤ b.1) = true) (h₂ : decide (b.1 ≤ c.1) = true) :
    decide (a.1 ≤ c.1) = true := by
  rw [decide_eq_true_eq] at h₁ h₂ ⊢
  exact le_trans h₁ h₂

/-- The comparator Python uses on `syscalls.items()` is total. -/
theorem keyLe_total (a b : Str × List Test) :
    (decide (a.1 ≤ b.1) || decide (b.1 ≤ a.1)) = true := by
  rcases le_total a.1 b.1 with h | h <;> simp [h]

/-- The comparator of `tests.sort(key=lambda t: t.name)` is transitive. -/
theorem nameLe_trans (a b c : Test)
    (h₁ : decide (a.name ≤ b.name) = true)
    (h₂ : decide (b.name ≤ c.name) = true) :
    decide (a.name ≤ c.name) = true := by
  rw [decide_eq_true_eq] at h₁ h₂ ⊢
  exact le_trans h₁ h₂

/-- The comparator of `tests.sort(key=lambda t: t.name)` is total. -/
theorem nameLe_total (a b : Test) :
    (decide (a.name ≤ b.name) || decide (b.name ≤ a.name)) = true := by
  rcases le_total a.name b.name with h | h <;> simp [h]

/-- `sortGroups` leaves the category names in non-decreasing lexical
order. -/
theorem sorted_keys_sortGroups (gs : Groups) :
    List.Sorted (· ≤ ·) ((sortGroups gs).map Prod.fst) := by
  have hpair :=
    @List.sorted_mergeSort (Str × List Test)
      (fun g₁ g₂ => decide (g₁.1 ≤ g₂.1)) keyLe_trans keyLe_total gs
  unfold sortGroups
  rw [List.map_map]
  have hfst : (Prod.fst ∘ fun g : Str × List Test =>
      (g.1, g.2.mergeSort (fun t₁ t₂ => decide (t₁.name ≤ t₂.name)))) =
        Prod.fst := rfl
  rw [hfst, List.Sorted, List.pairwise_map]
  exact hpair.imp (fun h => of_decide_eq_true h)

/-- The categories emitted by `sortGroups` are a permutation of the dict
keys. -/
theorem keys_sortGroups_perm (gs : Groups) :
    ((sortGroups gs).map Prod.fst).Perm (gs.map Prod.fst) := by
  unfold sortGroups
  rw [List.map_map]
  have hfst : (Prod.fst ∘ fun g : Str × List Test =>
      (g.1, g.2.mergeSort (fun t₁ t₂ => decide (t₁.name ≤ t₂.name)))) =
        Prod.fst := rfl
  rw [hfst]
  exact (List.mergeSort_perm gs _).map Prod.fst

/-- C3.  In the rendered report of a well-formed manifest, the category
blocks appear in strictly ascending lexical order of category name, and the
test rows inside each category appear in ascending lexical order of test
name. -/
theorem report_sorted (records : List (List Str)) (covered : Str → Bool)
    (gs : Groups) (h : buildGroups records covered = .ok gs) :
    List.Sorted (· < ·) ((sortGroups gs).map Prod.fst) ∧
      ∀ g ∈ sortGroups gs,
        List.Sorted (· ≤ ·) (g.2.map Test.name) := by
  constructor
  · have hnodup : (gs.map Prod.fst).Nodup :=
      buildGroupsAux_keys_nodup covered records [] gs (by simp) h
    have hle := sorted_keys_sortGroups gs
    have hnd : ((sortGroups gs).map Prod.fst).Nodup :=
      (keys_sortGroups_perm gs).nodup_iff.mpr hnodup
    exact hle.lt_of_le hnd
  · intro g hg
    unfold sortGroups at hg
    obtain ⟨g₀, hg₀, rfl⟩ := List.mem_map.mp hg
    have hpair :=
      @List.sorted_mergeSort Test
        (fun t₁ t₂ => decide (t₁.name ≤ t₂.name)) nameLe_trans nameLe_total
        g₀.2
    rw [List.Sorted, List.pairwise_map]
    exact hpair.imp (fun h => of_decide_eq_true h)

/-- Witness for `report_sorted` on a two-category manifest given out of
order. -/
theorem report_sorted_witness :
    List.Sorted (· < ·)
        ((sortGroups [("b".toList, [⟨"x".toList, false, "d1".toList⟩]),
            ("a".toList, [⟨"y".toList, false, "d2".toList⟩])]).map
          Prod.fst) ∧
      ∀ g ∈ sortGroups [("b".toList, [⟨"x".toList, false, "d1".toList⟩]),
          ("a".toList, [⟨"y".toList, false, "d2".toList⟩])],
        List.Sorted (· ≤ ·) (g.2.map Test.name) :=
  report_sorted
    [["b/x".toList, "d1".toList], ["a/y".toList, "d2".toList]]
    (fun _ => false)
    [("b".toList, [⟨"x".toList, false, "d1".toList⟩]),
      ("a".toList, [⟨"y".toList, false, "d2".toList⟩])]
    rfl

/-- `addTest` preserves a per-category property of the stored tests when the
inserted test satisfies it for its category. -/
theorem addTest_forall (P : Str → Test → Prop) (c : Str) (t : Test)
    (hP : P c t) :
    ∀ gs : Groups, (∀ c₀ ts, (c₀, ts) ∈ gs → ∀ t₀ ∈ ts, P c₀ t₀) →
      ∀ c₀ ts, (c₀, ts) ∈ addTest gs c t → ∀ t₀ ∈ ts, P c₀ t₀ := by
  intro gs
  induction gs with
  | nil =>
    intro hgs c₀ ts hmem t₀ ht₀
    simp only [addTest, List.mem_singleton, Prod.mk.injEq] at hmem
    obtain ⟨rfl, rfl⟩ := hmem
    rcases List.mem_singleton.mp ht₀ with rfl
    exact hP
  | cons g rest ih =>
    obtain ⟨c₁, ts₁⟩ := g
    intro hgs c₀ ts hmem t₀ ht₀
    by_cases hc : c₁ = c
    · subst hc
      rw [addTest_cons_self] at hmem
      rcases List.mem_cons.mp hmem with heq | hmem₁
      · simp only [Prod.mk.injEq] at heq
        obtain ⟨rfl, rfl⟩ := heq
        rcases List.mem_append.mp ht₀ with hmem₀ | hmem₀
        · exact hgs _ _ (List.mem_cons_self _ _) t₀ hmem₀
        · rcases List.mem_singleton.mp hmem₀ with rfl
          exact hP
      · exact hgs _ _ (List.mem_cons_of_mem _ hmem₁) t₀ ht₀
    · rw [addTest_cons_ne c₁ c hc] at hmem
      rcases List.mem_cons.mp hmem with heq | hmem₁
      · simp only [Prod.mk.injEq] at heq
        obtain ⟨rfl, rfl⟩ := heq
        exact hgs _ _ (List.mem_cons_self _ _) t₀ ht₀
      · exact ih (fun c₂ ts₂ hm => hgs c₂ ts₂ (List.mem_cons_of_mem _ hm))
          _ _ hmem₁ t₀ ht₀

/-- In any dict the grouping loop produces, a test's `has_rust_file` flag is
exactly the coverage of its recomposed id `category ++ "/" ++ name`. -/
theorem buildGroupsAux_has_rust (covered : Str → Bool) :
    ∀ (records : List (List Str)) (gs out : Groups),
      buildGroupsAux covered gs records = .ok out →
      (∀ c₀ ts, (c₀, ts) ∈ gs → ∀ t₀ ∈ ts,
        t₀.has_rust_file = covered (c₀ ++ '/' :: t₀.name)) →
      ∀ c₀ ts, (c₀, ts) ∈ out → ∀ t₀ ∈ ts,
        t₀.has_rust_file = covered (c₀ ++ '/' :: t₀.name) := by
  intro records
  induction records with
  | nil =>
    intro gs out h hgs
    simp only [buildGroupsAux, Except.ok.injEq] at h
    exact h ▸ hgs
  | cons r rs ih =>
    intro gs out h hgs
    cases hstep : groupStep covered gs r with
    | error e => rw [buildGroupsAux, hstep] at h; cases h
    | ok gs₁ =>
      rw [buildGroupsAux, hstep] at h
      obtain ⟨t, d, sy, nm, rfl, hsp, rfl⟩ :=
        groupStep_ok_elim covered gs r gs₁ hstep
      refine ih _ out h (addTest_forall _ sy _ ?_ gs hgs)
      show covered t = covered (sy ++ '/' :: nm)
      rw [pySplit_pair '/' t sy nm hsp]

/-- C4.  In every rendered category block, the progress value of the header
counts exactly the tests of the category whose recomposed id is covered, and
never exceeds the header's max, the number of tests in the category. -/
theorem progress_header (records : List (List Str)) (covered : Str → Bool)
    (gs : Groups) (h : buildGroups records covered = .ok gs) :
    ∀ g ∈ sortGroups gs,
      (categoryHeader g.2).1 =
          g.2.countP (fun t => covered (g.1 ++ '/' :: t.name)) ∧
        (categoryHeader g.2).1 ≤ (categoryHeader g.2).2 := by
  intro g hg
  have hinv := buildGroupsAux_has_rust covered records [] gs h
    (by intro c₀ ts hmem; cases hmem)
  unfold sortGroups at hg
  obtain ⟨g₀, hg₀, rfl⟩ := List.mem_map.mp hg
  have hg₀gs : g₀ ∈ gs := ((List.mergeSort_perm gs _).mem_iff).mp hg₀
  constructor
  · simp only [categoryHeader]
    apply List.countP_congr
    intro t ht
    have ht₀ : t ∈ g₀.2 := ((List.mergeSort_perm g₀.2 _).mem_iff).mp ht
    have heq := hinv g₀.1 g₀.2 (by rw [Prod.mk.eta]; exact hg₀gs) t ht₀
    rw [heq]
  · exact List.countP_le_length _

/-- Witness for `progress_header` on a one-category, one-test manifest whose
test is covered. -/
theorem progress_header_witness :
    (categoryHeader [(⟨"01.t".toList, true, "d1".toList⟩ : Test)]).1 =
        [(⟨"01.t".toList, true, "d1".toList⟩ : Test)].countP
          (fun t => decide (("open".toList ++ '/' :: t.name) =
            "open/01.t".toList)) ∧
      (categoryHeader [(⟨"01.t".toList, true, "d1".toList⟩ : Test)]).1 ≤
        (categoryHeader [(⟨"01.t".toList, true, "d1".toList⟩ : Test)]).2 :=
  progress_header [["open/01.t".toList, "d1".toList]]
    (fun s => decide (s = "open/01.t".toList))
    [("open".toList, [⟨"01.t".toList, true, "d1".toList⟩])]
    rfl
    ("open".toList, [⟨"01.t".toList, true, "d1".toList⟩])
    (by simp [sortGroups, List.mergeSort_singleton])

/-- No match ever starts in the empty string. -/
theorem matchAt_nil (i : Nat) : ¬ matchAt [] i := by
  rintro ⟨h₁, -⟩
  rw [List.drop_nil] at h₁
  exact absurd h₁ (by decide)

/-- Shifting a match position across the head of the string. -/
theorem matchAt_succ (c : Char) (cs : Str) (i : Nat) :
    matchAt (c :: cs) (i + 1) ↔ matchAt cs i := by
  unfold matchAt
  have harith : i + 1 + descPat.length = (i + descPat.length) + 1 := by omega
  rw [List.drop_succ_cons, harith, List.drop_succ_cons]

/-- When the pattern matches at the head and the capture closes, the regex
search returns that capture. -/
theorem reSearchDesc_cons_found (c : Char) (cs : Str) (cap : Str)
    (hpre : descPat.isPrefixOf (c :: cs) = true)
    (hcap : captureAux ((c :: cs).drop descPat.length) = some cap) :
    reSearchDesc (c :: cs) = some cap := by
  rw [reSearchDesc, if_pos hpre, hcap]

/-- When no match starts at position 0, the regex search moves one character
to the right. -/
theorem reSearchDesc_cons_skip (c : Char) (cs : Str)
    (h : ¬ matchAt (c :: cs) 0) :
    reSearchDesc (c :: cs) = reSearchDesc cs := by
  rw [reSearchDesc]
  by_cases hpre : descPat.isPrefixOf (c :: cs) = true
  · rw [if_pos hpre]
    cases hcap : captureAux ((c :: cs).drop descPat.length) with
    | none => rfl
    | some cap =>
      exact absurd
        ⟨by rw [List.drop_zero]; exact hpre,
          by rw [Nat.zero_add, hcap]; rfl⟩ h
  · rw [if_neg hpre]

/-- The regex search fails exactly when no match starts anywhere. -/
theorem reSearchDesc_eq_none_iff :
    ∀ l : Str, reSearchDesc l = none ↔ ∀ i, ¬ matchAt l i := by
  intro l
  induction l with
  | nil => exact ⟨fun _ i => matchAt_nil i, fun _ => rfl⟩
  | cons c cs ih =>
    constructor
    · intro hnone i
      by_cases h0 : matchAt (c :: cs) 0
      · exfalso
        obtain ⟨hpre, hcap⟩ := h0
        rw [List.drop_zero] at hpre
        rw [Nat.zero_add] at hcap
        cases hcapEq : captureAux ((c :: cs).drop descPat.length) with
        | none => rw [hcapEq] at hcap; cases hcap
        | some cap =>
          rw [reSearchDesc_cons_found c cs cap hpre hcapEq] at hnone
          cases hnone
      · cases i with
        | zero => exact h0
        | succ j =>
          rw [reSearchDesc_cons_skip c cs h0] at hnone
          rw [matchAt_succ]
          exact (ih.mp hnone) j
    · intro hall
      have h0 : ¬ matchAt (c :: cs) 0 := hall 0
      rw [reSearchDesc_cons_skip c cs h0]
      exact ih.mpr (fun j hm => hall (j + 1) ((matchAt_succ c cs j).mpr hm))

/-- The regex search returns the capture of the leftmost match. -/
theorem reSearchDesc_leftmost :
    ∀ (l : Str) (i : Nat), matchAt l i → (∀ j, j < i → ¬ matchAt l j) →
      reSearchDesc l = captureAux (l.drop (i + descPat.length)) := by
  intro l
  induction l with
  | nil => intro i hm _; exact absurd hm (matchAt_nil i)
  | cons c cs ih =>
    intro i hm hall
    cases i with
    | zero =>
      obtain ⟨hpre, hcap⟩ := hm
      rw [List.drop_zero] at hpre
      cases hcapEq : captureAux ((c :: cs).drop (0 + descPat.length)) with
      | none => rw [hcapEq] at hcap; cases hcap
      | some cap =>
        apply reSearchDesc_cons_found c cs cap hpre
        rw [Nat.zero_add] at hcapEq
        exact hcapEq
    | succ j =>
      have h0 : ¬ matchAt (c :: cs) 0 := hall 0 (Nat.succ_pos j)
      rw [reSearchDesc_cons_skip c cs h0]
      have hm₁ : matchAt cs j := (matchAt_succ c cs j).mp hm
      have hall₁ : ∀ k, k < j → ¬ matchAt cs k := by
        intro k hk hmk
        exact hall (k + 1) (by omega) ((matchAt_succ c cs k).mpr hmk)
      rw [ih j hm₁ hall₁]
      have harith : j + 1 + descPat.length = (j + descPat.length) + 1 := by
        omega
      rw [harith, List.drop_succ_cons]

/-- C5.  Descriptor extraction of the issue builder inspects only the first
600 characters; when no `desc="..."` match occurs in that prefix it yields
the sentinel `Unknown description` without failing; otherwise it yields the
capture of the leftmost match, so `desc="abc"` yields `abc` and the first
match wins when several occur. -/
theorem extract_description_spec :
    (∀ c₁ c₂ : Str, c₁.take 600 = c₂.take 600 →
        extract_description c₁ = extract_description c₂) ∧
      (∀ content : Str, (∀ i, ¬ matchAt (content.take 600) i) →
        extract_description content = "Unknown description".toList) ∧
      (∀ (content : Str) (i : Nat), matchAt (content.take 600) i →
        (∀ j, j < i → ¬ matchAt (content.take 600) j) →
        some (extract_description content) =
          captureAux ((content.take 600).drop (i + descPat.length))) ∧
      extract_description "x desc=\"abc\" desc=\"def\"".toList =
        "abc".toList := by
  refine ⟨?_, ?_, ?_, ?_⟩
  · intro c₁ c₂ h
    unfold extract_description
    rw [h]
  · intro content h
    unfold extract_description
    rw [(reSearchDesc_eq_none_iff (content.take 600)).mpr h]
  · intro content i hm hall
    unfold extract_description
    rw [reSearchDesc_leftmost (content.take 600) i hm hall]
    cases hcap : captureAux ((content.take 600).drop (i + descPat.length)) with
    | none =>
      obtain ⟨-, hsome⟩ := hm
      rw [hcap] at hsome
      cases hsome
    | some cap => rfl
  · decide

/-- Witness for `extract_description_spec`: the empty file yields the
sentinel, and a file opening with `desc="ab"` yields the match at position
0. -/
theorem extract_description_spec_witness :
    extract_description [] = "Unknown description".toList ∧
      some (extract_description "desc=\"ab\"".toList) =
        captureAux (("desc=\"ab\"".toList.take 600).drop
          (0 + descPat.length)) :=
  ⟨extract_description_spec.2.1 []
      (fun i => by rw [List.take_nil]; exact matchAt_nil i),
    extract_description_spec.2.2.1 "desc=\"ab\"".toList 0 (by decide)
      (fun j hj => absurd hj (by omega))⟩

/-- Create events recorded per directory, one pair `create; sleep` each. -/
theorem filterMap_createdDir_flatMap (l : List Str) :
    ((l.flatMap (fun d => [Event.create d, Event.sleep])).filterMap
      createdDir) = l := by
  induction l with
  | nil => rfl
  | cons d rest ih =>
    simp [List.flatMap_cons, List.filterMap_cons, createdDir, ih]

/-- C7.  The dispatch loop performs one create call per directory in
directory order, each successful call followed by the fixed delay; the first
failing call ends the trace (no later directory is dispatched, earlier
creations stay in the trace), and the loop completes iff every call
succeeds. -/
theorem create_issues_loop_spec (dirs : List Str) (ok : Str → Bool) :
    create_issues_loop ok dirs =
        ((dirs.takeWhile ok).flatMap
            (fun d => [Event.create d, Event.sleep]) ++
          ((dirs.dropWhile ok).take 1).map Event.create,
          dirs.all ok) ∧
      (dirs.all ok = true →
        (create_issues_loop ok dirs).1.filterMap createdDir = dirs) := by
  have hmain : ∀ ds : List Str, create_issues_loop ok ds =
      ((ds.takeWhile ok).flatMap (fun d => [Event.create d, Event.sleep]) ++
        ((ds.dropWhile ok).take 1).map Event.create, ds.all ok) := by
    intro ds
    induction ds with
    | nil => rfl
    | cons d rest ih =>
      by_cases hd : ok d = true
      · rw [create_issues_loop, if_pos hd, ih]
        simp [List.takeWhile_cons, List.dropWhile_cons, hd, List.all_cons]
      · rw [create_issues_loop, if_neg hd]
        simp only [Bool.not_eq_true] at hd
        simp [List.takeWhile_cons, List.dropWhile_cons, hd, List.all_cons]
  refine ⟨hmain dirs, ?_⟩
  intro hall
  rw [hmain dirs]
  have htake : dirs.takeWhile ok = dirs :=
    List.takeWhile_eq_self_iff.mpr (List.all_eq_true.mp hall)
  have hdrop : dirs.dropWhile ok = [] :=
    List.dropWhile_eq_nil_iff.mpr (List.all_eq_true.mp hall)
  rw [htake, hdrop]
  simp [filterMap_createdDir_flatMap]

/-- Witness for `create_issues_loop_spec` with two directories that both
succeed. -/
theorem create_issues_loop_spec_witness :
    (create_issues_loop (fun _ => true)
        ["chdir".toList, "chmod".toList]).1.filterMap createdDir =
      ["chdir".toList, "chmod".toList] :=
  (create_issues_loop_spec ["chdir".toList, "chmod".toList]
    (fun _ => true)).2 rfl

/-- C9.  When no line starts with the literal prefix `desc=` (even if
`desc="..."` occurs mid-line), the report's own descriptor finder returns
the empty string, not the `Unknown description` sentinel of the issue
builder. -/
theorem find_file_description_no_line (lines : FileLines)
    (h : ∀ line ∈ lines, ¬ descLinePat.isPrefixOf line = true) :
    find_file_description lines = [] ∧
      find_file_description lines ≠ "Unknown description".toList := by
  have hempty : find_file_description lines = [] := by
    induction lines with
    | nil => rfl
    | cons line rest ih =>
      rw [find_file_description, if_neg (h line (List.mem_cons_self _ _))]
      exact ih (fun l hl => h l (List.mem_cons_of_mem _ hl))
  refine ⟨hempty, ?_⟩
  rw [hempty]
  decide

/-- Witness for `find_file_description_no_line` on a file whose only
`desc="..."` occurrence is mid-line. -/
theorem find_file_description_no_line_witness :
    find_file_description ["x desc=\"abc\"".toList] = [] ∧
      find_file_description ["x desc=\"abc\"".toList] ≠
        "Unknown description".toList :=
  find_file_description_no_line ["x desc=\"abc\"".toList]
    (by
      intro line hl
      rw [List.mem_singleton] at hl
      subst hl
      decide)

end Pjdfstest
